import Mathlib

/-!
Verification of the nodeport-allocator repository.

This file shallowly embeds the port-allocation core of the repository
(pkg/utils/bitset.go, pkg/portmanager/range.go, pkg/portmanager/allocator.go,
pkg/config/config.go) as executable Lean definitions and settles the spec
claims as theorems about those definitions.

Modelling conventions:
* Go int32/int values are modelled as Int.  All ports reachable in the
  program lie in the validated window [30000, 32767], far away from any
  int32 wraparound, so no modular arithmetic is inserted for them.
* Go uint64 words are modelled as Nat together with the invariant that
  every word is below 2 ^ 64; where Go performs 64-bit truncating
  operations the model applies the corresponding mask explicitly.
* Fallible Go functions returning (T, error) are modelled with Except;
  functions that mutate a receiver are modelled by returning the new state.
* The key/value store (a ConfigMap) is modelled as the value most recently
  saved for the one range under consideration; a save either succeeds and
  replaces that value or fails and leaves it unchanged, which is decided by
  an explicit saveOk parameter at each call.
-/

namespace NPA

/-! ## BitSet (pkg/utils/bitset.go) -/

/-- BitSet structure from bitset.go: packed words, a size and a starting
offset.  Field bits holds the uint64 words as Nat. -/
structure BitSet where
  bits : List Nat
  size : Int
  offset : Int
deriving Repr, DecidableEq

/-- bitsPerWord constant from bitset.go. -/
def bitsPerWord : Nat := 64

/-- NewBitSet from bitset.go: size is end - start + 1 and the word count is
the rounded-up size divided by 64.  For end < start the Go code would panic
in make (negative length); that case is unreachable because configured
ranges satisfy start < end, and the model returns an empty word list. -/
def NewBitSet (start stop : Int) : BitSet :=
  let size := stop - start + 1
  let wordsNeeded := (size.toNat + bitsPerWord - 1) / bitsPerWord
  { bits := List.replicate wordsNeeded 0, size := size, offset := start }

/-- Error produced by the BitSet mutators when the port is outside the
domain of the bitmap (the Go functions return a fmt.Errorf value carrying
the port and the bounds). -/
inductive BitSetErr where
  | outOfDomain (port lo hi : Int)
deriving Repr, DecidableEq

/-- Set from bitset.go: bounds check, then set bit pos % 64 of word
pos / 64, where pos = port - offset. -/
def BitSet.set (bs : BitSet) (port : Int) : Except BitSetErr BitSet :=
  if port < bs.offset ∨ port ≥ bs.offset + bs.size then
    .error (.outOfDomain port bs.offset (bs.offset + bs.size - 1))
  else
    let pos := (port - bs.offset).toNat
    let wordIndex := pos / bitsPerWord
    let bitIndex := pos % bitsPerWord
    .ok { bs with
          bits := bs.bits.set wordIndex ((bs.bits.getD wordIndex 0) ||| (1 <<< bitIndex)) }

/-- Clear from bitset.go.  The Go operator on uint64 words is AND NOT; on
words below 2 ^ 64 it equals AND with the 64-bit complement of the mask,
which is how the model writes it. -/
def BitSet.clear (bs : BitSet) (port : Int) : Except BitSetErr BitSet :=
  if port < bs.offset ∨ port ≥ bs.offset + bs.size then
    .error (.outOfDomain port bs.offset (bs.offset + bs.size - 1))
  else
    let pos := (port - bs.offset).toNat
    let wordIndex := pos / bitsPerWord
    let bitIndex := pos % bitsPerWord
    .ok { bs with
          bits := bs.bits.set wordIndex
            ((bs.bits.getD wordIndex 0) &&& ((2 ^ 64 - 1) ^^^ (1 <<< bitIndex))) }

/-- Test from bitset.go: out-of-domain ports report false, in-domain ports
report the stored bit. -/
def BitSet.test (bs : BitSet) (port : Int) : Bool :=
  if port < bs.offset ∨ port ≥ bs.offset + bs.size then false
  else
    let pos := (port - bs.offset).toNat
    (bs.bits.getD (pos / bitsPerWord) 0) &&& (1 <<< (pos % bitsPerWord)) != 0

/-- Body of the double loop of FindFirstClear from bitset.go: walk the words
from index wi; skip a word equal to all ones; inside a word scan bit indexes
0..63 from low to high and return the first one whose bit is clear and whose
port offset + 64 * wordIndex + bitIndex is below the domain limit. -/
def ffcFrom (off lim : Int) : List Nat → Nat → Option Int
  | [], _ => none
  | w :: rest, wi =>
    if w = 2 ^ 64 - 1 then ffcFrom off lim rest (wi + 1)
    else
      match (List.range bitsPerWord).find?
          (fun b => (w &&& (1 <<< b) == 0) && decide (off + ((wi * bitsPerWord + b : Nat) : Int) < lim)) with
      | some b => some (off + ((wi * bitsPerWord + b : Nat) : Int))
      | none => ffcFrom off lim rest (wi + 1)

/-- FindFirstClear from bitset.go. -/
def BitSet.findFirstClear (bs : BitSet) : Option Int :=
  ffcFrom bs.offset (bs.offset + bs.size) bs.bits 0

/-- Well-formedness maintained by the Go type: every word is a uint64 and
the bitmap allocated by NewBitSet has enough words for its size. -/
def BitSet.WF (bs : BitSet) : Prop :=
  (∀ w ∈ bs.bits, w < 2 ^ 64) ∧ bs.size ≤ 64 * bs.bits.length

/-! ## Serialization (ToJSON / FromJSON in bitset.go) -/

/-- The JSON document written by ToJSON: the three fields bits, size and
offset.  The JSON container itself is lossless; what can lose information
is the decoding of numbers, modelled below. -/
structure BitSetBlob where
  bits : List Nat
  size : Int
  offset : Int
deriving Repr, DecidableEq

/-- ToJSON from bitset.go: marshal the three fields. -/
def BitSet.toJSON (bs : BitSet) : BitSetBlob :=
  { bits := bs.bits, size := bs.size, offset := bs.offset }

/-- Smallest right shift that brings n below 2 ^ 53, i.e. the number of
excess significand bits of n beyond IEEE-754 double precision.  For
n < 2 ^ 64 this is at most 11, so the bounded search always succeeds. -/
def excessBits (n : Nat) : Nat :=
  ((List.range 65).find? (fun e => n >>> e < 2 ^ 53)).getD 0

/-- Integer semantics of decoding a JSON number into a 64-bit IEEE float,
which is what encoding/json does for numbers decoded into interface
values, followed by the uint64 conversion in FromJSON: round to the
nearest integer with at most 53 significant bits, ties to even.  Values at
least 2 ^ 53 are rounded; the final mask mirrors the uint64 conversion
(conversions of floats at or above 2 ^ 64 are implementation defined in Go
and are not relied on by any theorem below). -/
def f64round (n : Nat) : Nat :=
  if n < 2 ^ 53 then n
  else
    let e := excessBits n
    let q := n >>> e
    let r := n % (2 ^ e)
    let half := 2 ^ (e - 1)
    let rounded :=
      if r < half then q
      else if half < r then q + 1
      else if q % 2 = 0 then q else q + 1
    (rounded <<< e) % 2 ^ 64

/-- Signed variant of f64round for the size and offset fields (both far
below 2 ^ 53 in every reachable configuration, where the rounding is
exact). -/
def f64roundInt (i : Int) : Int :=
  if i < 0 then -(f64round i.natAbs : Nat) else (f64round i.natAbs : Nat)

/-- FromJSON from bitset.go: every word of bits is decoded through a
float64, as are size and offset, and all three receiver fields are
replaced by the decoded values. -/
def BitSetBlob.fromJSON (b : BitSetBlob) : BitSet :=
  { bits := b.bits.map f64round, size := f64roundInt b.size, offset := f64roundInt b.offset }

/-! ## Storage loader (LoadBitSet in pkg/portmanager/storage code) -/

/-- What the store holds for one range name: nothing (no ConfigMap or no
key), a string FromJSON fails to decode, or a structurally valid blob. -/
inductive StoredData where
  | absent
  | corrupt
  | blob (b : BitSetBlob)
deriving Repr, DecidableEq

/-- LoadBitSet: absent data and decode failures yield a fresh empty bitmap
for the configured bounds; a successfully decoded blob replaces every field
of the freshly created bitmap, so the result is exactly the decoded blob. -/
def loadBitSet (d : StoredData) (start stop : Int) : BitSet :=
  match d with
  | .absent => NewBitSet start stop
  | .corrupt => NewBitSet start stop
  | .blob b => b.fromJSON

/-! ## Configuration (pkg/config/config.go, pkg/config/types.go) -/

/-- PortRange configuration record from types.go.  The Go field End is
called stop here because end is a Lean keyword.  The labels mapping is an
association list. -/
structure PortRangeCfg where
  start : Int
  stop : Int
  namespaces : List String
  labels : List (String × String)
  description : String
deriving Repr, DecidableEq

/-- Global configuration from types.go.  The Go map portRanges is carried
as an association list whose order is the (unspecified, per-run) iteration
order of the Go map.  The validity of the retry-delay duration string is
abstracted as a boolean because time.ParseDuration is outside the core. -/
structure GlobalCfg where
  portRanges : List (String × PortRangeCfg)
  defaultRange : String
  allowOutsideRangePorts : Bool
  retryDelayValid : Bool
deriving Repr, DecidableEq

/-- Validation errors of validateConfig in config.go, one constructor per
return site. -/
inductive ConfigErr where
  | noRanges
  | noDefault
  | defaultMissing (name : String)
  | invalidBounds (name : String)
  | startNotBelowEnd (name : String)
  | outsideNodePortWindow (name : String)
  | badRetryDelay
deriving Repr, DecidableEq

/-- Go map indexing config.PortRanges[name]: the entry with that key, if
any (keys of a Go map are unique). -/
def lookupRange (rs : List (String × PortRangeCfg)) (name : String) : Option PortRangeCfg :=
  (rs.find? (fun p => p.1 == name)).map Prod.snd

/-- The per-range checks of the validation loop in validateConfig. -/
def checkRange (name : String) (r : PortRangeCfg) : Option ConfigErr :=
  if r.start ≤ 0 ∨ r.stop ≤ 0 then some (.invalidBounds name)
  else if r.start ≥ r.stop then some (.startNotBelowEnd name)
  else if r.start < 30000 ∨ r.stop > 32767 then some (.outsideNodePortWindow name)
  else none

/-- The validation loop of validateConfig: first failing range wins. -/
def firstRangeErr : List (String × PortRangeCfg) → Option ConfigErr
  | [] => none
  | (name, r) :: rest =>
    match checkRange name r with
    | some e => some e
    | none => firstRangeErr rest

/-- validateConfig from config.go: non-empty range set, non-empty default
name that keys into the range set, per-range bounds checks, and a parsable
retry delay.  Returns none when the configuration is accepted. -/
def validateConfig (c : GlobalCfg) : Option ConfigErr :=
  if c.portRanges.isEmpty then some .noRanges
  else if c.defaultRange == "" then some .noDefault
  else if (lookupRange c.portRanges c.defaultRange).isNone then
    some (.defaultMissing c.defaultRange)
  else
    match firstRangeErr c.portRanges with
    | some e => some e
    | none => if c.retryDelayValid then none else some .badRetryDelay

/-- The label-selector test of GetPortRangeForService: every key/value pair
of the range labels must be present in the Service labels. -/
def labelsMatch (rangeLabels svcLabels : List (String × String)) : Bool :=
  rangeLabels.all (fun kv => (svcLabels.find? (fun p => p.1 == kv.1)).any (fun p => p.2 == kv.2))

/-- The per-range condition of the label-matching loop in
GetPortRangeForService: a non-empty labels mapping that matches. -/
def labelPred (svcLabels : List (String × String)) (p : String × PortRangeCfg) : Bool :=
  !p.2.labels.isEmpty && labelsMatch p.2.labels svcLabels

/-- The per-range condition of the loop in GetPortRangeForNamespace: some
entry of the namespaces list equals the namespace or is the wildcard. -/
def nsPred (ns : String) (p : String × PortRangeCfg) : Bool :=
  p.2.namespaces.any (fun s => s == ns || s == "*")

/-- GetPortRangeForNamespace from config.go: the first range (in iteration
order) whose namespaces match wins, with no priority between a literal
entry and the wildcard; otherwise fall back to the default range, and
report an error (none) when the default name is missing. -/
def getPortRangeForNamespace (rs : List (String × PortRangeCfg)) (defaultName ns : String) :
    Option (String × PortRangeCfg) :=
  match rs.find? (nsPred ns) with
  | some p => some p
  | none => (lookupRange rs defaultName).map (fun r => (defaultName, r))

/-- GetPortRangeForService from config.go: first try the label loop, then
fall back to the namespace resolution. -/
def getPortRangeForService (rs : List (String × PortRangeCfg)) (defaultName ns : String)
    (svcLabels : List (String × String)) : Option (String × PortRangeCfg) :=
  match rs.find? (labelPred svcLabels) with
  | some p => some p
  | none => getPortRangeForNamespace rs defaultName ns

/-! ## PortRange state machine (pkg/portmanager/range.go) -/

/-- Errors returned by the PortRange methods, one constructor per fmt.Errorf
site. -/
inductive RangeErr where
  | notInitialized
  | outOfRange (port lo hi : Int)
  | portInUse (port : Int)
  | rangeFull (name : String)
  | setFailed (e : BitSetErr)
  | clearFailed (e : BitSetErr)
  | saveFailed
deriving Repr, DecidableEq

/-- State of one PortRange: the in-memory bitmap (nil before Initialize)
together with the bitmap value most recently persisted for this range. -/
structure RangeState where
  bitSet : Option BitSet
  store : Option BitSet
deriving Repr, DecidableEq

/-- The rollback in AllocatePort and MarkPortAsUsed ignores the error of
Clear, as the Go code does. -/
def clearQuiet (bs : BitSet) (port : Int) : BitSet :=
  match bs.clear port with
  | .ok b => b
  | .error _ => bs

/-- The rollback in ReleasePort ignores the error of Set. -/
def setQuiet (bs : BitSet) (port : Int) : BitSet :=
  match bs.set port with
  | .ok b => b
  | .error _ => bs

/-- Tail of AllocatePort after the port has been chosen: set the bit, then
save; on save failure clear the bit again and surface the error. -/
def allocFinish (saveOk : Bool) (st : RangeState) (bs : BitSet) (port : Int) :
    Except RangeErr Int × RangeState :=
  match bs.set port with
  | .error e => (.error (.setFailed e), st)
  | .ok bs2 =>
    if saveOk then (.ok port, { bitSet := some bs2, store := some bs2 })
    else (.error .saveFailed, { st with bitSet := some (clearQuiet bs2 port) })

/-- AllocatePort from range.go.  A non-zero requested port must lie within
the configured bounds and be currently clear; requested port zero walks the
bitmap with FindFirstClear.  The chosen port is set and persisted, with
rollback of the in-memory bit on save failure. -/
def allocatePort (cfg : PortRangeCfg) (name : String) (saveOk : Bool) (st : RangeState)
    (requestedPort : Int) : Except RangeErr Int × RangeState :=
  match st.bitSet with
  | none => (.error .notInitialized, st)
  | some bs =>
    if requestedPort ≠ 0 then
      if requestedPort < cfg.start ∨ requestedPort > cfg.stop then
        (.error (.outOfRange requestedPort cfg.start cfg.stop), st)
      else if bs.test requestedPort then (.error (.portInUse requestedPort), st)
      else allocFinish saveOk st bs requestedPort
    else
      match bs.findFirstClear with
      | none => (.error (.rangeFull name), st)
      | some port => allocFinish saveOk st bs port

/-- ReleasePort from range.go: bounds check, no-op success when the bit is
already clear, otherwise clear and persist with rollback of the in-memory
bit on save failure. -/
def releasePort (cfg : PortRangeCfg) (saveOk : Bool) (st : RangeState) (port : Int) :
    Except RangeErr Unit × RangeState :=
  match st.bitSet with
  | none => (.error .notInitialized, st)
  | some bs =>
    if port < cfg.start ∨ port > cfg.stop then
      (.error (.outOfRange port cfg.start cfg.stop), st)
    else if !bs.test port then (.ok (), st)
    else
      match bs.clear port with
      | .error e => (.error (.clearFailed e), st)
      | .ok bs2 =>
        if saveOk then (.ok (), { bitSet := some bs2, store := some bs2 })
        else (.error .saveFailed, { st with bitSet := some (setQuiet bs2 port) })

/-- MarkPortAsUsed from range.go: bounds check, no-op success when the bit
is already set, otherwise set and persist with rollback of the in-memory
bit on save failure. -/
def markPortAsUsed (cfg : PortRangeCfg) (saveOk : Bool) (st : RangeState) (port : Int) :
    Except RangeErr Unit × RangeState :=
  match st.bitSet with
  | none => (.error .notInitialized, st)
  | some bs =>
    if port < cfg.start ∨ port > cfg.stop then
      (.error (.outOfRange port cfg.start cfg.stop), st)
    else if bs.test port then (.ok (), st)
    else
      match bs.set port with
      | .error e => (.error (.setFailed e), st)
      | .ok bs2 =>
        if saveOk then (.ok (), { bitSet := some bs2, store := some bs2 })
        else (.error .saveFailed, { st with bitSet := some (clearQuiet bs2 port) })

/-- IsPortUsed from range.go: false before initialization, otherwise a pure
read of the bitmap. -/
def isPortUsed (st : RangeState) (port : Int) : Bool :=
  match st.bitSet with
  | none => false
  | some bs => bs.test port

/-- The three mutating public PortRange operations. -/
inductive RangeOp where
  | allocate (requested : Int)
  | release (port : Int)
  | markUsed (port : Int)
deriving Repr, DecidableEq

/-- Run one public mutating PortRange operation; the Bool reports whether
the call returned success. -/
def runRangeOp (cfg : PortRangeCfg) (name : String) (saveOk : Bool) (st : RangeState) :
    RangeOp → Bool × RangeState
  | .allocate requested =>
    match allocatePort cfg name saveOk st requested with
    | (.ok _, st2) => (true, st2)
    | (.error _, st2) => (false, st2)
  | .release port =>
    match releasePort cfg saveOk st port with
    | (.ok _, st2) => (true, st2)
    | (.error _, st2) => (false, st2)
  | .markUsed port =>
    match markPortAsUsed cfg saveOk st port with
    | (.ok _, st2) => (true, st2)
    | (.error _, st2) => (false, st2)

/-! ## Allocator (pkg/portmanager/allocator.go)

The model covers AllocateForService after range resolution (lines 45-98 of
allocator.go): the resolution itself is the config functions above, and a
resolution failure happens before any allocation.  A Service is carried as
the list of nodePort values of its port entries, in declared order.  The
human-readable name and message fields of AllocationResult are plain
logging data and are omitted; rangeName is constant in the single resolved
range and is omitted as well. -/

/-- One entry of the results slice built by AllocateForService. -/
structure AllocationResult where
  portIndex : Nat
  allocatedPort : Int
deriving Repr, DecidableEq

/-- Errors of AllocateForService, one constructor per return site of the
loop body. -/
inductive AllocErr where
  | autoAllocFailed (portIndex : Nat) (e : RangeErr)
  | outsideRange (port lo hi : Int)
  | portAlreadyUsed (port : Int)
  | allocateFailed (port : Int) (e : RangeErr)
deriving Repr, DecidableEq

/-- rollbackAllocations from allocator.go: release every previously
allocated port, in order, ignoring release errors (they are only logged). -/
def rollbackAllocations (cfg : PortRangeCfg) (saveOk : Bool) (st : RangeState)
    (results : List AllocationResult) : RangeState :=
  results.foldl (fun s r => (releasePort cfg saveOk s r.allocatedPort).2) st

/-- Handling of one port entry with a concrete (non-zero) nodePort, after
the outside-range gate has been passed: the IsPortUsed pre-check and the
AllocatePort call.  Mirrors lines 78-96 of allocator.go. -/
def allocSpecified (cfg : PortRangeCfg) (name : String) (saveOk : Bool) (st : RangeState)
    (p : Int) (i : Nat) (results : List AllocationResult) :
    Except AllocErr (RangeState × List AllocationResult) × RangeState :=
  if isPortUsed st p then (.error (.portAlreadyUsed p), st)
  else
    match allocatePort cfg name saveOk st p with
    | (.ok _, st2) => (.ok (st2, results ++ [{ portIndex := i, allocatedPort := p }]), st2)
    | (.error e, st2) => (.error (.allocateFailed p e), rollbackAllocations cfg saveOk st2 results)

/-- The loop of AllocateForService over the port entries.  A nodePort of
zero is auto-allocated, with rollback of the prior results on failure.  A
concrete nodePort outside the resolved range is rejected when outside-range
ports are not allowed — note the Go code returns at that point, and at the
IsPortUsed pre-check, without rolling back — and otherwise (inside the
range, or outside with the flag set, after a log line) is pre-checked and
allocated. -/
def allocLoop (cfg : PortRangeCfg) (name : String) (allowOutside saveOk : Bool) :
    RangeState → List Int → Nat → List AllocationResult →
    Except AllocErr (List AllocationResult) × RangeState
  | st, [], _, results => (.ok results, st)
  | st, p :: rest, i, results =>
    if p = 0 then
      match allocatePort cfg name saveOk st 0 with
      | (.ok allocated, st2) =>
        allocLoop cfg name allowOutside saveOk st2 rest (i + 1)
          (results ++ [{ portIndex := i, allocatedPort := allocated }])
      | (.error e, st2) =>
        (.error (.autoAllocFailed i e), rollbackAllocations cfg saveOk st2 results)
    else
      if p < cfg.start ∨ p > cfg.stop then
        if !allowOutside then (.error (.outsideRange p cfg.start cfg.stop), st)
        else
          match allocSpecified cfg name saveOk st p i results with
          | (.ok (st2, results2), _) => allocLoop cfg name allowOutside saveOk st2 rest (i + 1) results2
          | (.error e, st2) => (.error e, st2)
      else
        match allocSpecified cfg name saveOk st p i results with
        | (.ok (st2, results2), _) => allocLoop cfg name allowOutside saveOk st2 rest (i + 1) results2
        | (.error e, st2) => (.error e, st2)

/-- AllocateForService from allocator.go, for one resolved range. -/
def allocateForService (cfg : PortRangeCfg) (name : String) (allowOutside saveOk : Bool)
    (st : RangeState) (ports : List Int) : Except AllocErr (List AllocationResult) × RangeState :=
  allocLoop cfg name allowOutside saveOk st ports 0 []

/-! ## Bit-level helper lemmas -/

theorem testBit_one_shiftLeft (b i : Nat) : (1 <<< b).testBit i = decide (i = b) := by
  rw [Nat.testBit_shiftLeft]
  rcases Nat.lt_or_ge i b with h | h
  · simp [Nat.not_le.mpr h, Nat.ne_of_lt h]
  · rcases Nat.eq_or_lt_of_le h with rfl | h2
    · simp
    · have h3 : 0 < i - b := by omega
      have h4 : Nat.testBit 1 (i - b) = false :=
        Nat.testBit_eq_false_of_lt (by
          calc 1 < 2 ^ 1 := by norm_num
          _ ≤ 2 ^ (i - b) := Nat.pow_le_pow_right (by norm_num) h3)
      simp [h4, Nat.ne_of_gt h2]

theorem mask_test (w b : Nat) : (w &&& (1 <<< b) != 0) = w.testBit b := by
  have h : w &&& (1 <<< b) = (w.testBit b).toNat * 2 ^ b := by
    rw [Nat.shiftLeft_eq, one_mul, Nat.and_two_pow]
  cases hb : w.testBit b <;> simp [h, hb, (Nat.two_pow_pos b).ne']

theorem testBit_high_false (w i : Nat) (hw : w < 2 ^ 64) (hi : 64 ≤ i) : w.testBit i = false :=
  Nat.testBit_eq_false_of_lt
    (lt_of_lt_of_le hw (Nat.pow_le_pow_right (by norm_num) hi))

theorem or_mask_and_not (w b : Nat) (hw : w < 2 ^ 64) (hb : b < 64)
    (hbit : w.testBit b = false) :
    (w ||| (1 <<< b)) &&& ((2 ^ 64 - 1) ^^^ (1 <<< b)) = w := by
  apply Nat.eq_of_testBit_eq
  intro i
  rw [Nat.testBit_and, Nat.testBit_or, Nat.testBit_xor, Nat.testBit_two_pow_sub_one,
    testBit_one_shiftLeft]
  by_cases hib : i = b
  · subst hib
    simp [hbit, hb]
  · rcases Nat.lt_or_ge i 64 with h64 | h64
    · simp [hib, h64]
    · simp [hib, Nat.not_lt.mpr h64, testBit_high_false w i hw h64]

theorem and_not_or_mask (w b : Nat) (hw : w < 2 ^ 64) (hb : b < 64)
    (hbit : w.testBit b = true) :
    (w &&& ((2 ^ 64 - 1) ^^^ (1 <<< b))) ||| (1 <<< b) = w := by
  apply Nat.eq_of_testBit_eq
  intro i
  rw [Nat.testBit_or, Nat.testBit_and, Nat.testBit_xor, Nat.testBit_two_pow_sub_one,
    testBit_one_shiftLeft]
  by_cases hib : i = b
  · subst hib
    simp [hbit]
  · rcases Nat.lt_or_ge i 64 with h64 | h64
    · simp [hib, h64]
    · simp [hib, Nat.not_lt.mpr h64, testBit_high_false w i hw h64]

theorem or_mask_lt (w b : Nat) (hw : w < 2 ^ 64) (hb : b < 64) : w ||| (1 <<< b) < 2 ^ 64 := by
  have h : (1 <<< b) < 2 ^ 64 := by
    rw [Nat.shiftLeft_eq, one_mul]
    exact Nat.pow_lt_pow_right (by norm_num) hb
  exact Nat.or_lt_two_pow hw h

theorem and_not_lt (w m : Nat) (hw : w < 2 ^ 64) : w &&& m < 2 ^ 64 :=
  lt_of_le_of_lt (Nat.and_le_left) hw

theorem all_ones_of_testBit (w : Nat) (hw : w < 2 ^ 64)
    (h : ∀ b, b < 64 → w.testBit b = true) : w = 2 ^ 64 - 1 := by
  apply Nat.eq_of_testBit_eq
  intro i
  rw [Nat.testBit_two_pow_sub_one]
  rcases Nat.lt_or_ge i 64 with h64 | h64
  · simp [h i h64, h64]
  · simp [testBit_high_false w i hw h64, Nat.not_lt.mpr h64]

/-! ## List helper lemmas -/

theorem getD_set_self (l : List Nat) (i : Nat) (a : Nat) (h : i < l.length) :
    (l.set i a).getD i 0 = a := by
  simp [List.getD_eq_getElem?_getD, List.getElem?_set_self (by simpa using h)]

theorem getD_set_ne (l : List Nat) (i j : Nat) (a : Nat) (h : i ≠ j) :
    (l.set i a).getD j 0 = l.getD j 0 := by
  simp [List.getD_eq_getElem?_getD, List.getElem?_set_ne h]

theorem set_getD_self (l : List Nat) (i : Nat) (h : i < l.length) :
    l.set i (l.getD i 0) = l := by
  apply List.ext_getElem?
  intro j
  by_cases hij : i = j
  · subst hij
    rw [List.getElem?_set_self h]
    simp [List.getD_eq_getElem?_getD, List.getElem?_eq_getElem h]
  · exact List.getElem?_set_ne hij

theorem getD_replicate_zero (n j : Nat) : (List.replicate n (0 : Nat)).getD j 0 = 0 := by
  rw [List.getD_eq_getElem?_getD, List.getElem?_replicate]
  by_cases h : j < n <;> simp [h]

theorem find?_range'_eq_some (p : Nat → Bool) (k : Nat) :
    ∀ (n s : Nat), s ≤ k → k < s + n → (∀ j, s ≤ j → j < k → p j = false) →
      p k = true → (List.range' s n).find? p = some k := by
  intro n
  induction n with
  | zero => intro s h1 h2; omega
  | succ m ih =>
    intro s h1 h2 hbelow hk
    rw [List.range'_succ]
    rcases Nat.eq_or_lt_of_le h1 with rfl | hlt
    · simp [List.find?_cons_of_pos, hk]
    · rw [List.find?_cons_of_neg]
      · exact ih (s + 1) hlt (by omega) (fun j hj1 hj2 => hbelow j (by omega) hj2) hk
      · simp [hbelow s (le_refl s) hlt]

theorem find?_range_eq_some (p : Nat → Bool) (k n : Nat) (hk : k < n)
    (hbelow : ∀ j, j < k → p j = false) (hp : p k = true) :
    (List.range n).find? p = some k := by
  rw [List.range_eq_range']
  exact find?_range'_eq_some p k n 0 (Nat.zero_le k) (by omega)
    (fun j _ hj => hbelow j hj) hp

/-! ## BitSet-level lemmas -/

/-- The bit stored at position j of a word list (position = port - offset). -/
def wordBit (ws : List Nat) (j : Nat) : Bool :=
  (ws.getD (j / 64) 0) &&& (1 <<< (j % 64)) != 0

theorem wordBit_cons (w : Nat) (rest : List Nat) (j : Nat) :
    wordBit (w :: rest) (j + 64) = wordBit rest j := by
  unfold wordBit
  rw [Nat.add_div_right j (by norm_num), Nat.add_mod_right]
  rfl

theorem wordBit_head (w : Nat) (rest : List Nat) (j : Nat) (hj : j < 64) :
    wordBit (w :: rest) j = w.testBit j := by
  unfold wordBit
  rw [Nat.div_eq_of_lt hj, Nat.mod_eq_of_lt hj]
  exact mask_test w j

theorem test_in_domain (bs : BitSet) (p : Int) (h1 : bs.offset ≤ p)
    (h2 : p < bs.offset + bs.size) :
    bs.test p = wordBit bs.bits (p - bs.offset).toNat := by
  unfold BitSet.test wordBit
  rw [if_neg (by omega)]
  rfl

theorem test_true_domain (bs : BitSet) (p : Int) (h : bs.test p = true) :
    bs.offset ≤ p ∧ p < bs.offset + bs.size := by
  by_contra hcon
  unfold BitSet.test at h
  rw [if_pos (by omega)] at h
  exact Bool.false_ne_true h

theorem set_ok_iff (bs : BitSet) (p : Int) :
    (∃ bs2, bs.set p = .ok bs2) ↔ (bs.offset ≤ p ∧ p < bs.offset + bs.size) := by
  unfold BitSet.set
  by_cases h : p < bs.offset ∨ p ≥ bs.offset + bs.size
  · rw [if_pos h]
    simp
    omega
  · rw [if_neg h]
    simp
    omega

theorem set_ok_elim (bs : BitSet) (p : Int) (bs2 : BitSet) (hset : bs.set p = .ok bs2) :
    bs.offset ≤ p ∧ p < bs.offset + bs.size ∧
      bs2 = { bs with
              bits := bs.bits.set ((p - bs.offset).toNat / 64)
                ((bs.bits.getD ((p - bs.offset).toNat / 64) 0) |||
                  (1 <<< ((p - bs.offset).toNat % 64))) } := by
  unfold BitSet.set at hset
  by_cases h : p < bs.offset ∨ p ≥ bs.offset + bs.size
  · rw [if_pos h] at hset
    exact absurd hset (by simp)
  · rw [if_neg h] at hset
    simp only [Except.ok.injEq] at hset
    refine ⟨by omega, by omega, ?_⟩
    simpa [bitsPerWord] using hset.symm

theorem clear_ok_elim (bs : BitSet) (p : Int) (bs2 : BitSet) (hclr : bs.clear p = .ok bs2) :
    bs.offset ≤ p ∧ p < bs.offset + bs.size ∧
      bs2 = { bs with
              bits := bs.bits.set ((p - bs.offset).toNat / 64)
                ((bs.bits.getD ((p - bs.offset).toNat / 64) 0) &&&
                  ((2 ^ 64 - 1) ^^^ (1 <<< ((p - bs.offset).toNat % 64)))) } := by
  unfold BitSet.clear at hclr
  by_cases h : p < bs.offset ∨ p ≥ bs.offset + bs.size
  · rw [if_pos h] at hclr
    exact absurd hclr (by simp)
  · rw [if_neg h] at hclr
    simp only [Except.ok.injEq] at hclr
    refine ⟨by omega, by omega, ?_⟩
    simpa [bitsPerWord] using hclr.symm

theorem getD_lt_of_words (l : List Nat) (i : Nat) (hw : ∀ w ∈ l, w < 2 ^ 64) :
    l.getD i 0 < 2 ^ 64 := by
  rw [List.getD_eq_getElem?_getD]
  rcases h : l[i]? with _ | w
  · simp [Nat.pos_pow_of_pos]
  · simpa using hw w (List.getElem?_mem h)

theorem wordIndex_lt (bs : BitSet) (p : Int) (hwf : bs.WF)
    (h1 : bs.offset ≤ p) (h2 : p < bs.offset + bs.size) :
    (p - bs.offset).toNat / 64 < bs.bits.length := by
  have hpos : (p - bs.offset).toNat < 64 * bs.bits.length := by
    have := hwf.2
    omega
  omega

/-- Setting a clear bit and clearing it again restores the original bitmap
(the rollback in AllocatePort and MarkPortAsUsed is exact). -/
theorem set_clear_cancel (bs : BitSet) (p : Int) (hwf : bs.WF)
    (hclear : bs.test p = false) (bs2 : BitSet) (hset : bs.set p = .ok bs2) :
    clearQuiet bs2 p = bs := by
  obtain ⟨h1, h2, hbs2⟩ := set_ok_elim bs p bs2 hset
  set pos := (p - bs.offset).toNat with hpos
  set wI := pos / 64 with hwI
  set b := pos % 64 with hb
  set w0 := bs.bits.getD wI 0 with hw0
  have hlen : wI < bs.bits.length := wordIndex_lt bs p hwf h1 h2
  have hw0lt : w0 < 2 ^ 64 := getD_lt_of_words bs.bits wI hwf.1
  have hb64 : b < 64 := Nat.mod_lt pos (by norm_num)
  have hbit : w0.testBit b = false := by
    have := test_in_domain bs p h1 h2
    rw [hclear] at this
    unfold wordBit at this
    rw [← mask_test]
    exact this.symm
  have hdom2 : ¬(p < bs2.offset ∨ p ≥ bs2.offset + bs2.size) := by
    rw [hbs2]
    simp only
    omega
  unfold clearQuiet BitSet.clear
  rw [if_neg hdom2]
  have hoff2 : bs2.offset = bs.offset := by rw [hbs2]
  have hpos2 : (p - bs2.offset).toNat = pos := by rw [hoff2]
  simp only [hpos2, hbs2, bitsPerWord]
  congr 1
  rw [getD_set_self _ _ _ (by simpa using hlen)]
  rw [or_mask_and_not w0 b hw0lt hb64 hbit]
  rw [List.set_set]
  exact set_getD_self bs.bits wI hlen

/-- Clearing a set bit and setting it again restores the original bitmap
(the rollback in ReleasePort is exact). -/
theorem clear_set_cancel (bs : BitSet) (p : Int) (hwf : bs.WF)
    (hset_ : bs.test p = true) (bs2 : BitSet) (hclr : bs.clear p = .ok bs2) :
    setQuiet bs2 p = bs := by
  obtain ⟨h1, h2, hbs2⟩ := clear_ok_elim bs p bs2 hclr
  set pos := (p - bs.offset).toNat with hpos
  set wI := pos / 64 with hwI
  set b := pos % 64 with hb
  set w0 := bs.bits.getD wI 0 with hw0
  have hlen : wI < bs.bits.length := wordIndex_lt bs p hwf h1 h2
  have hw0lt : w0 < 2 ^ 64 := getD_lt_of_words bs.bits wI hwf.1
  have hb64 : b < 64 := Nat.mod_lt pos (by norm_num)
  have hbit : w0.testBit b = true := by
    have := test_in_domain bs p h1 h2
    rw [hset_] at this
    unfold wordBit at this
    rw [← mask_test]
    exact this.symm
  have hdom2 : ¬(p < bs2.offset ∨ p ≥ bs2.offset + bs2.size) := by
    rw [hbs2]
    simp only
    omega
  unfold setQuiet BitSet.set
  rw [if_neg hdom2]
  have hoff2 : bs2.offset = bs.offset := by rw [hbs2]
  have hpos2 : (p - bs2.offset).toNat = pos := by rw [hoff2]
  simp only [hpos2, hbs2, bitsPerWord]
  congr 1
  rw [getD_set_self _ _ _ (by simpa using hlen)]
  rw [and_not_or_mask w0 b hw0lt hb64 hbit]
  rw [List.set_set]
  exact set_getD_self bs.bits wI hlen

theorem set_preserves_WF (bs : BitSet) (p : Int) (bs2 : BitSet) (hwf : bs.WF)
    (hset : bs.set p = .ok bs2) : bs2.WF := by
  obtain ⟨h1, h2, hbs2⟩ := set_ok_elim bs p bs2 hset
  subst hbs2
  constructor
  · intro w hwmem
    rcases List.mem_or_eq_of_mem_set hwmem with hmem | rfl
    · exact hwf.1 w hmem
    · exact or_mask_lt _ _ (getD_lt_of_words bs.bits _ hwf.1)
        (Nat.mod_lt _ (by norm_num))
  · simpa using hwf.2

theorem clear_preserves_WF (bs : BitSet) (p : Int) (bs2 : BitSet) (hwf : bs.WF)
    (hclr : bs.clear p = .ok bs2) : bs2.WF := by
  obtain ⟨h1, h2, hbs2⟩ := clear_ok_elim bs p bs2 hclr
  subst hbs2
  constructor
  · intro w hwmem
    rcases List.mem_or_eq_of_mem_set hwmem with hmem | rfl
    · exact hwf.1 w hmem
    · exact and_not_lt _ _ (getD_lt_of_words bs.bits _ hwf.1)
  · simpa using hwf.2

/-! ## FindFirstClear lemmas -/

theorem ffcFrom_some_elim (off lim : Int) :
    ∀ (ws : List Nat) (wi : Nat) (p : Int), ffcFrom off lim ws wi = some p →
      ∃ j : Nat, p = off + ((wi * 64 + j : Nat) : Int) ∧ j < 64 * ws.length ∧
        wordBit ws j = false ∧ p < lim := by
  intro ws
  induction ws with
  | nil => intro wi p h; exact absurd h (by simp [ffcFrom])
  | cons w rest ih =>
    intro wi p h
    unfold ffcFrom at h
    by_cases hall : w = 2 ^ 64 - 1
    · rw [if_pos hall] at h
      obtain ⟨j, hj1, hj2, hj3, hj4⟩ := ih (wi + 1) p h
      refine ⟨j + 64, ?_, ?_, ?_, hj4⟩
      · rw [hj1]
        congr 1
        push_cast
        ring
      · simp only [List.length_cons]
        omega
      · rw [wordBit_cons]
        exact hj3
    · rw [if_neg hall] at h
      rcases hfind : (List.range bitsPerWord).find?
          (fun b => (w &&& (1 <<< b) == 0) &&
            decide (off + ((wi * bitsPerWord + b : Nat) : Int) < lim)) with _ | b
      · rw [hfind] at h
        obtain ⟨j, hj1, hj2, hj3, hj4⟩ := ih (wi + 1) p h
        refine ⟨j + 64, ?_, ?_, ?_, hj4⟩
        · rw [hj1]
          congr 1
          push_cast
          ring
        · simp only [List.length_cons]
          omega
        · rw [wordBit_cons]
          exact hj3
      · rw [hfind] at h
        have hb64 : b < 64 := by
          have := List.mem_range.mp (List.mem_of_find?_eq_some hfind)
          simpa [bitsPerWord] using this
        have hprop := List.find?_some hfind
        simp only [Bool.and_eq_true, beq_iff_eq, decide_eq_true_eq] at hprop
        refine ⟨b, ?_, ?_, ?_, ?_⟩
        · simpa [bitsPerWord] using h.symm
        · simp only [List.length_cons]
          omega
        · rw [wordBit_head w rest b hb64, ← mask_test]
          simp [hprop.1]
        · have := hprop.2
          simpa [bitsPerWord, ← (Option.some.injEq _ _).mp h] using this

theorem ffcFrom_first_clear :
    ∀ (ws : List Nat) (wi k : Nat) (off lim : Int),
      (∀ w ∈ ws, w < 2 ^ 64) → (∀ j, wordBit ws j = decide (j < k)) →
      k < 64 * ws.length → off + ((wi * 64 + k : Nat) : Int) < lim →
      ffcFrom off lim ws wi = some (off + ((wi * 64 + k : Nat) : Int)) := by
  intro ws
  induction ws with
  | nil => intro wi k off lim _ _ hk; simp at hk
  | cons w rest ih =>
    intro wi k off lim hwords hbits hk hlim
    rcases Nat.lt_or_ge k 64 with hk64 | hk64
    · have hbitw : ∀ j, j < 64 → w.testBit j = decide (j < k) := by
        intro j hj
        rw [← wordBit_head w rest j hj]
        exact hbits j
      have hwne : w ≠ 2 ^ 64 - 1 := by
        intro hcon
        have h1 : w.testBit k = decide (k < k) := hbitw k hk64
        rw [hcon, Nat.testBit_two_pow_sub_one] at h1
        simp [hk64] at h1
      unfold ffcFrom
      rw [if_neg hwne]
      have hfind : (List.range bitsPerWord).find?
          (fun b => (w &&& (1 <<< b) == 0) &&
            decide (off + ((wi * bitsPerWord + b : Nat) : Int) < lim)) = some k := by
        apply find?_range_eq_some
        · simpa [bitsPerWord] using hk64
        · intro j hj
          have : w.testBit j = true := by
            rw [hbitw j (by omega)]
            simp [hj]
          rw [← mask_test] at this
          simp only [Bool.and_eq_false_iff]
          left
          simpa using this
        · have hcl : w.testBit k = false := by
            rw [hbitw k hk64]
            simp
          rw [← mask_test] at hcl
          simp only [Bool.and_eq_true, beq_iff_eq, decide_eq_true_eq]
          constructor
          · simpa using hcl
          · simpa [bitsPerWord] using hlim
      rw [hfind]
      simp [bitsPerWord]
    · have hwall : w = 2 ^ 64 - 1 := by
        apply all_ones_of_testBit w (hwords w (List.mem_cons_self w rest))
        intro b hb
        rw [← wordBit_head w rest b hb, hbits b]
        simp
        omega
      unfold ffcFrom
      rw [if_pos hwall]
      have harith : ((wi + 1) * 64 + (k - 64) : Nat) = (wi * 64 + k : Nat) := by omega
      have := ih (wi + 1) (k - 64) off lim
        (fun x hx => hwords x (List.mem_cons_of_mem w hx))
        (fun j => by
          rw [← wordBit_cons w rest j, hbits (j + 64)]
          simp only [decide_eq_decide]
          omega)
        (by simp only [List.length_cons] at hk; omega)
        (by rw [harith]; exact hlim)
      rw [harith] at this
      exact this

theorem findFirstClear_some_elim (bs : BitSet) (p : Int)
    (h : bs.findFirstClear = some p) :
    bs.test p = false ∧ bs.offset ≤ p ∧ p < bs.offset + bs.size := by
  obtain ⟨j, hj1, hj2, hj3, hj4⟩ := ffcFrom_some_elim bs.offset (bs.offset + bs.size)
    bs.bits 0 p h
  have h1 : bs.offset ≤ p := by
    rw [hj1]
    have : (0 : Int) ≤ ((0 * 64 + j : Nat) : Int) := Int.natCast_nonneg _
    omega
  refine ⟨?_, h1, hj4⟩
  rw [test_in_domain bs p h1 hj4]
  have : (p - bs.offset).toNat = j := by
    rw [hj1]
    simp
  rw [this]
  exact hj3

/-! ## Cache-store agreement lemmas for the PortRange operations -/

/-! ## Cache-store agreement lemmas for the PortRange operations -/

theorem allocFinish_spec (saveOk : Bool) (st : RangeState) (bs : BitSet) (port : Int)
    (hwf : bs.WF) (hst : st.bitSet = some bs) (htest : bs.test port = false) :
    (∃ p st2, allocFinish saveOk st bs port = (.ok p, st2) ∧ st2.store = st2.bitSet) ∨
    (∃ e, allocFinish saveOk st bs port = (.error e, st)) := by
  unfold allocFinish
  rcases hset : bs.set port with e | bs2
  · right
    exact ⟨.setFailed e, rfl⟩
  · cases saveOk with
    | true =>
      left
      exact ⟨port, _, rfl, rfl⟩
    | false =>
      right
      refine ⟨.saveFailed, ?_⟩
      have hcancel : clearQuiet bs2 port = bs := set_clear_cancel bs port hwf htest bs2 hset
      simp only [hcancel]
      rw [← hst]
      simp

theorem allocatePort_spec (cfg : PortRangeCfg) (name : String) (saveOk : Bool)
    (st : RangeState) (q : Int)
    (hwf : ∀ bs, st.bitSet = some bs → bs.WF) :
    (∃ p st2, allocatePort cfg name saveOk st q = (.ok p, st2) ∧ st2.store = st2.bitSet) ∨
    (∃ e, allocatePort cfg name saveOk st q = (.error e, st)) := by
  unfold allocatePort
  rcases hbs : st.bitSet with _ | bs
  · right
    exact ⟨.notInitialized, rfl⟩
  · have hwfbs := hwf bs hbs
    simp only []
    by_cases hq : q ≠ 0
    · rw [if_pos hq]
      by_cases hrange : q < cfg.start ∨ q > cfg.stop
      · rw [if_pos hrange]
        right
        exact ⟨.outOfRange q cfg.start cfg.stop, rfl⟩
      · rw [if_neg hrange]
        by_cases htest : bs.test q = true
        · rw [if_pos htest]
          right
          exact ⟨.portInUse q, rfl⟩
        · rw [if_neg htest]
          exact allocFinish_spec saveOk st bs q hwfbs hbs (by simpa using htest)
    · rw [if_neg hq]
      rcases hffc : bs.findFirstClear with _ | p
      · right
        exact ⟨.rangeFull name, rfl⟩
      · exact allocFinish_spec saveOk st bs p hwfbs hbs (findFirstClear_some_elim bs p hffc).1

theorem releasePort_spec (cfg : PortRangeCfg) (saveOk : Bool) (st : RangeState) (q : Int)
    (hwf : ∀ bs, st.bitSet = some bs → bs.WF) (hagree : st.store = st.bitSet) :
    (∃ st2, releasePort cfg saveOk st q = (.ok (), st2) ∧ st2.store = st2.bitSet) ∨
    (∃ e, releasePort cfg saveOk st q = (.error e, st)) := by
  unfold releasePort
  rcases hbs : st.bitSet with _ | bs
  · right
    exact ⟨.notInitialized, rfl⟩
  · have hwfbs := hwf bs hbs
    simp only []
    by_cases hrange : q < cfg.start ∨ q > cfg.stop
    · rw [if_pos hrange]
      right
      exact ⟨.outOfRange q cfg.start cfg.stop, rfl⟩
    · rw [if_neg hrange]
      by_cases htest : bs.test q = true
      · rw [htest]
        simp only [Bool.not_true]
        rw [if_neg (by simp)]
        rcases hclr : bs.clear q with e | bs2
        · right
          exact ⟨.clearFailed e, rfl⟩
        · cases saveOk with
          | true =>
            left
            exact ⟨_, rfl, rfl⟩
          | false =>
            right
            refine ⟨.saveFailed, ?_⟩
            have hcancel : setQuiet bs2 q = bs := clear_set_cancel bs q hwfbs htest bs2 hclr
            simp only [hcancel]
            rw [← hbs]
            simp
      · left
        have hfalse : bs.test q = false := by simpa using htest
        rw [hfalse]
        refine ⟨st, by simp, ?_⟩
        rw [hagree, hbs]

theorem markPortAsUsed_spec (cfg : PortRangeCfg) (saveOk : Bool) (st : RangeState) (q : Int)
    (hwf : ∀ bs, st.bitSet = some bs → bs.WF) (hagree : st.store = st.bitSet) :
    (∃ st2, markPortAsUsed cfg saveOk st q = (.ok (), st2) ∧ st2.store = st2.bitSet) ∨
    (∃ e, markPortAsUsed cfg saveOk st q = (.error e, st)) := by
  unfold markPortAsUsed
  rcases hbs : st.bitSet with _ | bs
  · right
    exact ⟨.notInitialized, rfl⟩
  · have hwfbs := hwf bs hbs
    simp only []
    by_cases hrange : q < cfg.start ∨ q > cfg.stop
    · rw [if_pos hrange]
      right
      exact ⟨.outOfRange q cfg.start cfg.stop, rfl⟩
    · rw [if_neg hrange]
      by_cases htest : bs.test q = true
      · rw [if_pos htest]
        left
        refine ⟨st, rfl, ?_⟩
        rw [hagree, hbs]
      · rw [if_neg htest]
        rcases hset : bs.set q with e | bs2
        · right
          exact ⟨.setFailed e, rfl⟩
        · cases saveOk with
          | true =>
            left
            exact ⟨_, rfl, rfl⟩
          | false =>
            right
            refine ⟨.saveFailed, ?_⟩
            have hcancel : clearQuiet bs2 q = bs :=
              set_clear_cancel bs q hwfbs (by simpa using htest) bs2 hset
            simp only [hcancel]
            rw [← hbs]
            simp

/-! ## First-fit machinery -/

/-- A sequence of auto-allocations (requested port 0) against one range,
with every save succeeding; none gives up at the first failed allocation. -/
def autoAllocPorts (cfg : PortRangeCfg) (name : String) : RangeState → Nat → Option (List Int)
  | _, 0 => some []
  | st, n + 1 =>
    match allocatePort cfg name true st 0 with
    | (.ok p, st2) => (autoAllocPorts cfg name st2 n).map (fun ps => p :: ps)
    | (.error _, _) => none

/-- Invariant of the first-fit run: the bitmap covers [a, b], its words are
uint64 values, there are enough words, and exactly the k lowest positions
are set. -/
def PrefixState (a b : Int) (k : Nat) (bs : BitSet) : Prop :=
  bs.offset = a ∧ bs.size = b - a + 1 ∧ (∀ w ∈ bs.bits, w < 2 ^ 64) ∧
    (b - a + 1) ≤ 64 * bs.bits.length ∧ (∀ j, wordBit bs.bits j = decide (j < k))

theorem wordBit_after_set (ws : List Nat) (k : Nat) (hk : k / 64 < ws.length) (j : Nat) :
    wordBit (ws.set (k / 64) ((ws.getD (k / 64) 0) ||| (1 <<< (k % 64)))) j
      = (wordBit ws j || decide (j = k)) := by
  by_cases hw : j / 64 = k / 64
  · unfold wordBit
    rw [hw, getD_set_self _ _ _ hk]
    rw [mask_test, mask_test, Nat.testBit_or, testBit_one_shiftLeft]
    congr 1
    have h1 := Nat.div_add_mod j 64
    have h2 := Nat.div_add_mod k 64
    simp only [decide_eq_decide]
    omega
  · unfold wordBit
    rw [getD_set_ne _ _ _ _ (fun h => hw h.symm)]
    have : j ≠ k := by
      intro h
      exact hw (by rw [h])
    simp [this]

/-- Unfolding equation: a successful bounds check makes Set return the
updated word list. -/
theorem set_ok_intro (bs : BitSet) (p : Int) (h1 : bs.offset ≤ p)
    (h2 : p < bs.offset + bs.size) :
    bs.set p = .ok { bs with
      bits := bs.bits.set ((p - bs.offset).toNat / 64)
        ((bs.bits.getD ((p - bs.offset).toNat / 64) 0) |||
          (1 <<< ((p - bs.offset).toNat % 64))) } := by
  unfold BitSet.set
  rw [if_neg (by omega)]
  simp only [bitsPerWord]

/-- Unfolding equation: auto-allocation reduces to allocFinish at the port
found by FindFirstClear. -/
theorem allocatePort_auto_eq (cfg : PortRangeCfg) (name : String) (saveOk : Bool)
    (st : RangeState) (bs : BitSet) (p : Int) (hbs : st.bitSet = some bs)
    (hffc : bs.findFirstClear = some p) :
    allocatePort cfg name saveOk st 0 = allocFinish saveOk st bs p := by
  unfold allocatePort
  split
  next heq =>
    rw [hbs] at heq
    cases heq
  next bs2 heq =>
    rw [hbs] at heq
    injection heq with h
    subst h
    rw [if_neg (by simp : ¬((0 : Int) ≠ 0))]
    split
    next hffc2 =>
      rw [hffc] at hffc2
      cases hffc2
    next q hffc2 =>
      rw [hffc] at hffc2
      injection hffc2 with h
      subst h
      rfl

/-- Unfolding equation: allocFinish with a successful set and a successful
save commits the new bitmap to memory and store. -/
theorem allocFinish_ok_eq (st : RangeState) (bs : BitSet) (port : Int) (bs2 : BitSet)
    (hset : bs.set port = .ok bs2) :
    allocFinish true st bs port = (.ok port, { bitSet := some bs2, store := some bs2 }) := by
  unfold allocFinish
  rcases h : bs.set port with e | bs3
  · rw [hset] at h
    cases h
  · rw [hset] at h
    injection h with h2
    subst h2
    rfl

theorem autoAlloc_step (cfg : PortRangeCfg) (name : String) (a b : Int) (k : Nat)
    (bs : BitSet) (store0 : Option BitSet)
    (hinv : PrefixState a b k bs) (hk : (k : Int) < b - a + 1) :
    ∃ bs2, allocatePort cfg name true { bitSet := some bs, store := store0 } 0
        = (.ok (a + (k : Int)), { bitSet := some bs2, store := some bs2 }) ∧
      PrefixState a b (k + 1) bs2 := by
  obtain ⟨hoff, hsize, hwords, hlen, hbits⟩ := hinv
  have hklen : k < 64 * bs.bits.length := by
    have h1 : ((k : Int)) < 64 * (bs.bits.length : Int) := by
      calc (k : Int) < b - a + 1 := hk
      _ ≤ 64 * (bs.bits.length : Int) := by exact_mod_cast hlen
    exact_mod_cast h1
  have hffc : bs.findFirstClear = some (a + (k : Int)) := by
    unfold BitSet.findFirstClear
    rw [hoff, hsize]
    have := ffcFrom_first_clear bs.bits 0 k a (a + (b - a + 1)) hwords hbits hklen
      (by simp only [Nat.zero_mul, Nat.zero_add]; omega)
    simpa using this
  have hpos : ((a + (k : Int)) - bs.offset).toNat = k := by
    rw [hoff]
    simp
  have hsetok : bs.set (a + (k : Int)) = .ok { bs with
      bits := bs.bits.set (k / 64) ((bs.bits.getD (k / 64) 0) ||| (1 <<< (k % 64))) } := by
    rw [set_ok_intro bs (a + (k : Int))
      (by rw [hoff]; have : (0 : Int) ≤ (k : Int) := Int.natCast_nonneg k; omega)
      (by rw [hoff, hsize]; omega)]
    rw [hpos]
  refine ⟨{ bs with
            bits := bs.bits.set (k / 64) ((bs.bits.getD (k / 64) 0) ||| (1 <<< (k % 64))) },
          ?_, ?_, ?_, ?_, ?_, ?_⟩
  · rw [allocatePort_auto_eq cfg name true _ bs _ rfl hffc]
    exact allocFinish_ok_eq _ bs _ _ hsetok
  · exact hoff
  · exact hsize
  · intro w hw
    rcases List.mem_or_eq_of_mem_set hw with hmem | rfl
    · exact hwords w hmem
    · exact or_mask_lt _ _ (getD_lt_of_words bs.bits _ hwords) (Nat.mod_lt _ (by norm_num))
  · show (b - a + 1) ≤ 64 *
      (((bs.bits.set (k / 64) ((bs.bits.getD (k / 64) 0) ||| (1 <<< (k % 64)))).length : Int))
    rw [List.length_set]
    exact hlen
  · intro j
    have hkdiv : k / 64 < bs.bits.length := by omega
    rw [wordBit_after_set bs.bits k hkdiv j, hbits j]
    by_cases h1 : j < k
    · simp [h1, show j < k + 1 by omega]
    · by_cases h2 : j = k
      · subst h2
        simp
      · have h3 : ¬j < k + 1 := by omega
        simp [h1, h2, h3]

/-- Unfolding equation for one successful step of the allocation run. -/
theorem autoAllocPorts_succ_ok (cfg : PortRangeCfg) (name : String) (st : RangeState)
    (n : Nat) (p : Int) (st2 : RangeState)
    (h : allocatePort cfg name true st 0 = (.ok p, st2)) :
    autoAllocPorts cfg name st (n + 1)
      = (autoAllocPorts cfg name st2 n).map (fun ps => p :: ps) := by
  simp only [autoAllocPorts]
  rw [h]

theorem autoAllocPorts_prefix (cfg : PortRangeCfg) (name : String) (a b : Int) :
    ∀ (N k : Nat) (bs : BitSet) (store0 : Option BitSet),
      PrefixState a b k bs → ((k : Int) + (N : Int)) ≤ b - a + 1 →
      autoAllocPorts cfg name { bitSet := some bs, store := store0 } N
        = some ((List.range N).map (fun i => a + ((k + i : Nat) : Int))) := by
  intro N
  induction N with
  | zero => intro k bs store0 _ _; simp [autoAllocPorts]
  | succ n ih =>
    intro k bs store0 hinv hle
    obtain ⟨bs2, hstep, hinv2⟩ := autoAlloc_step cfg name a b k bs store0 hinv
      (by push_cast at hle ⊢; omega)
    rw [autoAllocPorts_succ_ok cfg name _ n _ _ hstep]
    rw [ih (k + 1) bs2 (some bs2) hinv2 (by push_cast at hle ⊢; omega)]
    simp only [Option.map_some', Option.some.injEq]
    rw [List.range_succ_eq_map, List.map_cons, List.map_map]
    congr 1
    apply List.map_congr_left
    intro j hj
    simp only [Function.comp_apply]
    push_cast
    ring

/-! ## Policy resolution lemmas -/

theorem find?_perm_of_unique {α : Type} (l1 l2 : List α) (p : α → Bool) (hperm : l1.Perm l2)
    (huniq : ∀ x ∈ l1, ∀ y ∈ l1, p x = true → p y = true → x = y) :
    l1.find? p = l2.find? p := by
  rcases h1 : l1.find? p with _ | x
  · rcases h2 : l2.find? p with _ | y
    · rfl
    · have hy := List.find?_some h2
      have hmem : y ∈ l1 := hperm.mem_iff.mpr (List.mem_of_find?_eq_some h2)
      exact absurd hy (List.find?_eq_none.mp h1 y hmem)
  · have hx := List.find?_some h1
    have hmemx : x ∈ l2 := hperm.mem_iff.mp (List.mem_of_find?_eq_some h1)
    rcases h2 : l2.find? p with _ | y
    · exact absurd hx (List.find?_eq_none.mp h2 x hmemx)
    · have hy := List.find?_some h2
      have hmemy : y ∈ l1 := hperm.mem_iff.mpr (List.mem_of_find?_eq_some h2)
      rw [huniq x (List.mem_of_find?_eq_some h1) y hmemy hx hy]

theorem lookupRange_perm (rs1 rs2 : List (String × PortRangeCfg)) (hperm : rs1.Perm rs2)
    (hkeys : (rs1.map Prod.fst).Nodup) (n : String) :
    lookupRange rs1 n = lookupRange rs2 n := by
  unfold lookupRange
  rw [find?_perm_of_unique rs1 rs2 _ hperm]
  intro x hx y hy hpx hpy
  have hx1 : x.1 = n := by simpa using hpx
  have hy1 : y.1 = n := by simpa using hpy
  exact List.inj_on_of_nodup_map hkeys hx hy (by rw [hx1, hy1])

/-! ## Validation lemmas -/

theorem checkRange_eq_none_iff (name : String) (r : PortRangeCfg) :
    checkRange name r = none ↔
      (0 < r.start ∧ 0 < r.stop ∧ r.start < r.stop ∧ 30000 ≤ r.start ∧ r.stop ≤ 32767) := by
  unfold checkRange
  split_ifs with h1 h2 h3 <;> simp <;> omega

theorem firstRangeErr_eq_none_iff :
    ∀ rs : List (String × PortRangeCfg),
      firstRangeErr rs = none ↔ ∀ nr ∈ rs, checkRange nr.1 nr.2 = none := by
  intro rs
  induction rs with
  | nil => simp [firstRangeErr]
  | cons hd tl ih =>
    rcases hd with ⟨name, r⟩
    unfold firstRangeErr
    rcases hc : checkRange name r with _ | e
    · simp only [ih]
      constructor
      · intro h nr hnr
        rcases List.mem_cons.mp hnr with rfl | hmem
        · exact hc
        · exact h nr hmem
      · intro h nr hnr
        exact h nr (List.mem_cons_of_mem _ hnr)
    · simp only []
      constructor
      · intro h
        cases h
      · intro h
        have := h (name, r) (List.mem_cons_self _ _)
        rw [hc] at this
        cases this

theorem NewBitSet_offset (s e : Int) : (NewBitSet s e).offset = s := rfl

theorem NewBitSet_size (s e : Int) : (NewBitSet s e).size = e - s + 1 := rfl

theorem NewBitSet_bits (s e : Int) :
    (NewBitSet s e).bits = List.replicate (((e - s + 1).toNat + 63) / 64) 0 := rfl

theorem wordBit_replicate_zero (n j : Nat) : wordBit (List.replicate n 0) j = false := by
  unfold wordBit
  rw [getD_replicate_zero]
  simp

/-! ## Concrete inputs used by counterexamples and witnesses -/

/-- The range of scenario E5 of the spec: [31500, 31999]. -/
def e5cfg : PortRangeCfg := ⟨31500, 31999, [], [], ""⟩

/-- E5 pre-state: 31600 already in use, everything else free. -/
def e5bs : BitSet := setQuiet (NewBitSet 31500 31999) 31600

/-- E5 pre-state as a range state agreeing with its store. -/
def e5st : RangeState := { bitSet := some e5bs, store := some e5bs }

/-- An entirely free range state over [31500, 31999]. -/
def e5empty : RangeState :=
  { bitSet := some (NewBitSet 31500 31999), store := some (NewBitSet 31500 31999) }

/-- A range whose namespaces list is the wildcard only. -/
def wildRange : PortRangeCfg := ⟨31500, 31999, ["*"], [], ""⟩

/-- A range listing the namespace dev literally. -/
def devRange : PortRangeCfg := ⟨30000, 30999, ["dev"], [], ""⟩

/-- A range listing only the namespace prod. -/
def prodRange : PortRangeCfg := ⟨31000, 31499, ["prod"], [], ""⟩

/-- Two ranges with the same label selector. -/
def lblRangeA : PortRangeCfg := ⟨30000, 30999, [], [("team", "x")], ""⟩

/-- Second range with the same label selector as lblRangeA. -/
def lblRangeB : PortRangeCfg := ⟨31000, 31999, [], [("team", "x")], ""⟩

/-- A configuration with two overlapping intervals [30000, 30100] and
[30050, 30200]. -/
def overlapCfg : GlobalCfg :=
  { portRanges := [("a", ⟨30000, 30100, [], [], ""⟩), ("b", ⟨30050, 30200, [], [], ""⟩)]
    defaultRange := "a"
    allowOutsideRangePorts := false
    retryDelayValid := true }

/-- A small well-formed state for the cache-store agreement witness. -/
def c8bs : BitSet := NewBitSet 31500 31501

/-- Range state built from c8bs, in agreement with its store. -/
def c8st : RangeState := { bitSet := some c8bs, store := some c8bs }

/-! ## Claim theorems -/

/-- C1.  The claim says that every failure of AllocateForService after at
least one successful allocation rolls back the prior allocations, whatever
the failure source.  The code refutes it: the OutsideRange gate and the
IsPortUsed pre-check return without rollback.  This theorem runs scenario
E5 of the spec (ports [0, 31600, 0] in [31500, 31999] with 31600 in use):
the request is denied at the pre-check, yet 31500, allocated for the first
entry, stays held; an OutsideRange denial after one auto-allocation leaks
31500 the same way. -/
theorem allocateForService_e5_no_rollback :
    isPortUsed e5st 31500 = false ∧
    (allocateForService e5cfg "dev" false true e5st [0, 31600, 0]).1
      = .error (.portAlreadyUsed 31600) ∧
    isPortUsed (allocateForService e5cfg "dev" false true e5st [0, 31600, 0]).2 31500 = true ∧
    (allocateForService e5cfg "dev" false true e5empty [0, 32000]).1
      = .error (.outsideRange 32000 31500 31999) ∧
    isPortUsed (allocateForService e5cfg "dev" false true e5empty [0, 32000]).2 31500 = true :=
  ⟨rfl, rfl, rfl, rfl, rfl⟩

/-- C2.  The claim says that with allowOutsideRange set, a concrete
nodePort outside the resolved range is admitted with no range bookkeeping.
The code refutes the allowed half: after logging that the outside port is
allowed, it still calls AllocatePort, which re-checks the bounds and
fails, so the transaction is denied either way (with different errors). -/
theorem allocateForService_outside_allowed_denied :
    (allocateForService e5cfg "dev" true true e5empty [32000]).1
      = .error (.allocateFailed 32000 (.outOfRange 32000 31500 31999)) ∧
    (allocateForService e5cfg "dev" false true e5empty [32000]).1
      = .error (.outsideRange 32000 31500 31999) :=
  ⟨rfl, rfl⟩

/-- C3.  The claim says serialize/deserialize round-trips every BitSet
bit-exact, including words above 2 ^ 53.  FromJSON decodes each word
through a float64, so the word 2 ^ 53 + 1 comes back as 2 ^ 53 (ties to
even drop the low bit): the round-trip is not bit-exact. -/
theorem bitset_roundtrip_loses_high_word :
    BitSetBlob.fromJSON (BitSet.toJSON ⟨[2 ^ 53 + 1], 64, 0⟩) ≠ ⟨[2 ^ 53 + 1], 64, 0⟩ ∧
    BitSetBlob.fromJSON (BitSet.toJSON ⟨[2 ^ 53 + 1], 64, 0⟩) = ⟨[2 ^ 53], 64, 0⟩ := by
  decide

/-- C4 counterexample.  A stored blob whose offset and size disagree with
the configured bounds [31500, 31999] is not discarded: the loaded BitSet
carries the stale offset 31000 and size 100 instead of starting empty at
the configured bounds. -/
theorem loadBitSet_mismatch_not_discarded :
    loadBitSet (.blob ⟨[0], 100, 31000⟩) 31500 31999 ≠ NewBitSet 31500 31999 ∧
    (loadBitSet (.blob ⟨[0], 100, 31000⟩) 31500 31999).offset = 31000 ∧
    (loadBitSet (.blob ⟨[0], 100, 31000⟩) 31500 31999).size = 100 := by
  decide

/-- C4 amended.  The loader performs no offset/size comparison at all: a
decodable blob is adopted wholesale, so the result is independent of the
configured bounds; only an absent entry or a blob that fails to decode
falls back to a fresh empty BitSet at the configured bounds. -/
theorem loadBitSet_ignores_configured_bounds (b : BitSetBlob) (s1 e1 s2 e2 : Int) :
    loadBitSet (.blob b) s1 e1 = loadBitSet (.blob b) s2 e2 ∧
    loadBitSet .absent s1 e1 = NewBitSet s1 e1 ∧
    loadBitSet .corrupt s1 e1 = NewBitSet s1 e1 :=
  ⟨rfl, rfl, rfl⟩

/-- C5 counterexample.  validateConfig accepts a configuration whose two
ranges [30000, 30100] and [30050, 30200] overlap. -/
theorem validateConfig_accepts_overlapping :
    validateConfig overlapCfg = none ∧
    ∃ ra rb, lookupRange overlapCfg.portRanges "a" = some ra ∧
      lookupRange overlapCfg.portRanges "b" = some rb ∧
      rb.start ≤ ra.stop ∧ ra.start ≤ rb.stop := by
  refine ⟨by decide, ⟨30000, 30100, [], [], ""⟩, ⟨30050, 30200, [], [], ""⟩,
    by decide, by decide, by decide, by decide⟩

/-- C5 amended.  Configuration validation checks exactly: a non-empty
range set, a non-empty default name that keys into it, per-range bounds
0 < start < end within [30000, 32767], and a parsable retry delay.  No
pairwise-disjointness check exists, so overlap never causes rejection. -/
theorem validateConfig_ok_iff (c : GlobalCfg) :
    validateConfig c = none ↔
      (c.portRanges ≠ [] ∧ c.defaultRange ≠ "" ∧
        (lookupRange c.portRanges c.defaultRange).isSome = true ∧
        (∀ nr ∈ c.portRanges, 0 < nr.2.start ∧ 0 < nr.2.stop ∧ nr.2.start < nr.2.stop ∧
          30000 ≤ nr.2.start ∧ nr.2.stop ≤ 32767) ∧
        c.retryDelayValid = true) := by
  unfold validateConfig
  by_cases h1 : c.portRanges.isEmpty
  · rw [if_pos h1]
    simp [List.isEmpty_iff.mp h1]
  · rw [if_neg h1]
    have h1a : c.portRanges ≠ [] := by
      intro hcon
      exact h1 (by simp [hcon])
    by_cases h2 : c.defaultRange == ""
    · rw [if_pos h2]
      simp [beq_iff_eq.mp h2]
    · rw [if_neg h2]
      have h2a : c.defaultRange ≠ "" := by
        intro hcon
        exact h2 (by simp [hcon])
      by_cases h3 : (lookupRange c.portRanges c.defaultRange).isNone
      · rw [if_pos h3]
        simp [Option.isNone_iff_eq_none.mp h3]
      · rw [if_neg h3]
        have h3a : (lookupRange c.portRanges c.defaultRange).isSome = true := by
          rcases hl : lookupRange c.portRanges c.defaultRange with _ | v
          · exact absurd (by rw [hl]; rfl) h3
          · rfl
        rcases hfre : firstRangeErr c.portRanges with _ | e
        · by_cases h4 : c.retryDelayValid
          · rw [if_pos h4]
            constructor
            · intro _
              refine ⟨h1a, h2a, h3a, ?_, h4⟩
              intro nr hnr
              exact (checkRange_eq_none_iff nr.1 nr.2).mp
                ((firstRangeErr_eq_none_iff c.portRanges).mp hfre nr hnr)
            · intro _
              rfl
          · rw [if_neg h4]
            constructor
            · intro hcon
              cases hcon
            · intro hcon
              exact absurd hcon.2.2.2.2 h4
        · constructor
          · intro hcon
            cases hcon
          · intro hcon
            have := (firstRangeErr_eq_none_iff c.portRanges).mpr
              (fun nr hnr => (checkRange_eq_none_iff nr.1 nr.2).mpr (hcon.2.2.2.1 nr hnr))
            rw [hfre] at this
            cases this

/-- C6 counterexample.  Two iteration orders of the same two-range
configuration, both ranges label-matching the Service labels: the resolved
range name differs between the two evaluations, so resolution is not a
function of the configuration alone. -/
theorem resolve_order_dependent :
    [("a", lblRangeA), ("b", lblRangeB)].Perm [("b", lblRangeB), ("a", lblRangeA)] ∧
    (getPortRangeForService [("a", lblRangeA), ("b", lblRangeB)] "a" "default"
      [("team", "x")]).map Prod.fst = some "a" ∧
    (getPortRangeForService [("b", lblRangeB), ("a", lblRangeA)] "a" "default"
      [("team", "x")]).map Prod.fst = some "b" := by
  decide

/-- C6 amended.  Resolution is a deterministic function of the
configuration together with the map iteration order.  Whenever at most one
range label-matches and at most one range namespace-matches the request
(keys being unique as in a Go map), the result is independent of the
iteration order, so two evaluations agree.  With several label-matching
ranges the winner depends on the randomized iteration order, as the
counterexample shows. -/
theorem resolve_deterministic_of_unique_match (rs1 rs2 : List (String × PortRangeCfg))
    (dn ns : String) (svcLabels : List (String × String))
    (hperm : rs1.Perm rs2)
    (hkeys : (rs1.map Prod.fst).Nodup)
    (hlbl : ∀ x ∈ rs1, ∀ y ∈ rs1,
      labelPred svcLabels x = true → labelPred svcLabels y = true → x = y)
    (hns : ∀ x ∈ rs1, ∀ y ∈ rs1, nsPred ns x = true → nsPred ns y = true → x = y) :
    getPortRangeForService rs1 dn ns svcLabels = getPortRangeForService rs2 dn ns svcLabels := by
  unfold getPortRangeForService getPortRangeForNamespace
  rw [find?_perm_of_unique rs1 rs2 _ hperm hlbl, find?_perm_of_unique rs1 rs2 _ hperm hns,
    lookupRange_perm rs1 rs2 hperm hkeys dn]

/-- Witness for the C6 theorem at a singleton configuration. -/
theorem resolve_deterministic_of_unique_match_witness :
    [("dev", devRange)].Perm [("dev", devRange)] ∧
    ([("dev", devRange)].map Prod.fst).Nodup ∧
    (∀ x ∈ [("dev", devRange)], ∀ y ∈ [("dev", devRange)],
      labelPred [] x = true → labelPred [] y = true → x = y) ∧
    (∀ x ∈ [("dev", devRange)], ∀ y ∈ [("dev", devRange)],
      nsPred "dev" x = true → nsPred "dev" y = true → x = y) ∧
    getPortRangeForService [("dev", devRange)] "dev" "dev" []
      = getPortRangeForService [("dev", devRange)] "dev" "dev" [] :=
  ⟨by decide, by decide, by decide, by decide,
    resolve_deterministic_of_unique_match [("dev", devRange)] [("dev", devRange)]
      "dev" "dev" [] (by decide) (by decide) (by decide) (by decide)⟩

/-- C7 counterexample.  With a wildcard range first in iteration order and
a range listing the namespace dev literally after it, resolution for dev
returns the wildcard range, although a literal match exists. -/
theorem namespace_wildcard_shadows_literal :
    "dev" ∈ devRange.namespaces ∧ ("dev" ∈ wildRange.namespaces → False) ∧
    (getPortRangeForNamespace [("wild", wildRange), ("exp", devRange)] "exp" "dev").map
      Prod.fst = some "wild" := by
  decide

/-- C7 amended.  Namespace resolution returns the first range in iteration
order whose namespaces contain the namespace literally or the wildcard; a
literal match receives no priority over an earlier wildcard match. -/
theorem namespace_first_match_wins (pre post : List (String × PortRangeCfg))
    (e : String × PortRangeCfg) (dn ns : String)
    (hpre : ∀ q ∈ pre, nsPred ns q = false) (he : nsPred ns e = true) :
    getPortRangeForNamespace (pre ++ e :: post) dn ns = some e := by
  unfold getPortRangeForNamespace
  have hfind : (pre ++ e :: post).find? (nsPred ns) = some e := by
    rw [List.find?_append]
    have h1 : pre.find? (nsPred ns) = none :=
      List.find?_eq_none.mpr (fun x hx => by simp [hpre x hx])
    rw [h1, List.find?_cons_of_pos _ he]
    rfl
  rw [hfind]

/-- Witness for the C7 theorem: a non-matching range ahead of the matching
one. -/
theorem namespace_first_match_wins_witness :
    (∀ q ∈ [("p", prodRange)], nsPred "dev" q = false) ∧
    nsPred "dev" ("exp", devRange) = true ∧
    getPortRangeForNamespace ([("p", prodRange)] ++ ("exp", devRange) :: []) "p" "dev"
      = some ("exp", devRange) :=
  ⟨by decide, by decide,
    namespace_first_match_wins [("p", prodRange)] [] ("exp", devRange) "p" "dev"
      (by decide) (by decide)⟩

/-- C8.  Cache-store agreement: starting from a well-formed state whose
store agrees with the in-memory bitmap, every public mutating PortRange
operation either returns success with the store equal to the new in-memory
bitmap (success paths that skip saving leave the state untouched, so
agreement persists), or returns an error with the state exactly as before
— in particular a failed save is preceded by an exact in-memory rollback. -/
theorem range_cache_store_agreement (cfg : PortRangeCfg) (name : String) (saveOk : Bool)
    (st : RangeState) (op : RangeOp)
    (hwf : ∀ bs, st.bitSet = some bs → bs.WF) (hagree : st.store = st.bitSet) :
    ((runRangeOp cfg name saveOk st op).1 = true →
      (runRangeOp cfg name saveOk st op).2.store = (runRangeOp cfg name saveOk st op).2.bitSet) ∧
    ((runRangeOp cfg name saveOk st op).1 = false →
      (runRangeOp cfg name saveOk st op).2 = st) := by
  cases op with
  | allocate q =>
    rcases allocatePort_spec cfg name saveOk st q hwf with ⟨p, st2, heq, hag⟩ | ⟨e, heq⟩
    · simp only [runRangeOp]
      rw [heq]
      simp [hag]
    · simp only [runRangeOp]
      rw [heq]
      simp
  | release q =>
    rcases releasePort_spec cfg saveOk st q hwf hagree with ⟨st2, heq, hag⟩ | ⟨e, heq⟩
    · simp only [runRangeOp]
      rw [heq]
      simp [hag]
    · simp only [runRangeOp]
      rw [heq]
      simp
  | markUsed q =>
    rcases markPortAsUsed_spec cfg saveOk st q hwf hagree with ⟨st2, heq, hag⟩ | ⟨e, heq⟩
    · simp only [runRangeOp]
      rw [heq]
      simp [hag]
    · simp only [runRangeOp]
      rw [heq]
      simp

/-- Witness for the C8 theorem at a concrete allocation. -/
theorem range_cache_store_agreement_witness :
    (∀ bs, c8st.bitSet = some bs → bs.WF) ∧ c8st.store = c8st.bitSet ∧
    (((runRangeOp e5cfg "dev" true c8st (.allocate 0)).1 = true →
      (runRangeOp e5cfg "dev" true c8st (.allocate 0)).2.store
        = (runRangeOp e5cfg "dev" true c8st (.allocate 0)).2.bitSet) ∧
    ((runRangeOp e5cfg "dev" true c8st (.allocate 0)).1 = false →
      (runRangeOp e5cfg "dev" true c8st (.allocate 0)).2 = c8st)) :=
  ⟨fun bs h => by
      injection h with h2
      rw [← h2]
      constructor
      · decide
      · decide,
    rfl,
    range_cache_store_agreement e5cfg "dev" true c8st (.allocate 0)
      (fun bs h => by
        injection h with h2
        rw [← h2]
        constructor
        · decide
        · decide)
      rfl⟩

/-- C9.  First-fit monotonicity: in the empty range [a, b] the first N
auto-allocations (with every save succeeding) return exactly
a, a + 1, ..., a + N - 1 in that order, because FindFirstClear always
returns the smallest clear port of the domain. -/
theorem first_fit_monotonicity (a b : Int) (N : Nat) (hab : a ≤ b)
    (hN : (N : Int) ≤ b - a + 1) :
    autoAllocPorts ⟨a, b, [], [], ""⟩ "r"
        { bitSet := some (NewBitSet a b), store := some (NewBitSet a b) } N
      = some ((List.range N).map (fun i => a + ((i : Nat) : Int))) := by
  have h0 : PrefixState a b 0 (NewBitSet a b) := by
    refine ⟨rfl, rfl, ?_, ?_, ?_⟩
    · intro w hw
      rw [NewBitSet_bits] at hw
      rw [List.eq_of_mem_replicate hw]
      norm_num
    · rw [NewBitSet_bits, List.length_replicate]
      omega
    · intro j
      rw [NewBitSet_bits, wordBit_replicate_zero]
      simp
  have hrun := autoAllocPorts_prefix ⟨a, b, [], [], ""⟩ "r" a b N 0 (NewBitSet a b)
    (some (NewBitSet a b)) h0 (by push_cast; omega)
  rw [hrun]
  congr 1
  apply List.map_congr_left
  intro i _
  simp

/-- Witness for the C9 theorem: three allocations in the empty range
[5, 70] return 5, 6, 7. -/
theorem first_fit_monotonicity_witness :
    (5 : Int) ≤ 70 ∧ ((3 : Nat) : Int) ≤ 70 - 5 + 1 ∧
    autoAllocPorts ⟨5, 70, [], [], ""⟩ "r"
        { bitSet := some (NewBitSet 5 70), store := some (NewBitSet 5 70) } 3
      = some ((List.range 3).map (fun i => (5 : Int) + ((i : Nat) : Int))) :=
  ⟨by decide, by decide, first_fit_monotonicity 5 70 3 (by decide) (by decide)⟩

/-- C10.  Before Initialize has populated the bitmap, every public
PortRange operation is safe at the interface: the three mutators return
the not-initialized error and leave the state (including the store)
untouched, and IsPortUsed reports false. -/
theorem uninitialized_range_safe (cfg : PortRangeCfg) (name : String) (saveOk : Bool)
    (st : RangeState) (port : Int) (h : st.bitSet = none) :
    allocatePort cfg name saveOk st port = (.error .notInitialized, st) ∧
    releasePort cfg saveOk st port = (.error .notInitialized, st) ∧
    markPortAsUsed cfg saveOk st port = (.error .notInitialized, st) ∧
    isPortUsed st port = false := by
  unfold allocatePort releasePort markPortAsUsed isPortUsed
  rw [h]
  exact ⟨rfl, rfl, rfl, rfl⟩

/-- Witness for the C10 theorem at the fully uninitialized state. -/
theorem uninitialized_range_safe_witness :
    ({ bitSet := none, store := none } : RangeState).bitSet = none ∧
    (allocatePort e5cfg "dev" true { bitSet := none, store := none } 31500
        = (.error .notInitialized, { bitSet := none, store := none }) ∧
      releasePort e5cfg true { bitSet := none, store := none } 31500
        = (.error .notInitialized, { bitSet := none, store := none }) ∧
      markPortAsUsed e5cfg true { bitSet := none, store := none } 31500
        = (.error .notInitialized, { bitSet := none, store := none }) ∧
      isPortUsed { bitSet := none, store := none } 31500 = false) :=
  ⟨rfl, uninitialized_range_safe e5cfg "dev" true { bitSet := none, store := none } 31500 rfl⟩

end NPA
